import Mathlib

/-!
Verification development for the `ngram` repository (stevenbal/ngram).

The embedding translates `src/ngram/language_model.py` (the `LanguageModel`
class: `make_models`, `get_relative_freq`, `apply_modifications`,
`compute_prob`) into Lean.  Python floats are modelled by exact rationals
(`ℚ`), with `math.log` taken over the reals; Python exceptions are modelled
with `Except PyError`.  The counting structure `NestedDict` lives in
`src/ngram/nested_dict.py`, which is not part of the sources available under
`src/`; it is therefore modelled from the specification (spec section 4.1),
as marked on each of its operations.
-/

namespace Ngram

/-- The Python exceptions that the modelled code can raise, plus
`emptyModelError`, the error kind that the specification's error-handling
section postulates (the source never raises it; it is included so that
statements can compare the actual error against it). -/
inductive PyError where
  | zeroDivisionError
  | valueErrorMathDomain
  | indexError
  | emptyModelError
  deriving DecidableEq, Repr

instance {e a : Type} [DecidableEq e] [DecidableEq a] : DecidableEq (Except e a) := fun x y =>
  match x, y with
  | .error u, .error v => decidable_of_iff (u = v) (by simp)
  | .ok u, .ok v => decidable_of_iff (u = v) (by simp)
  | .error _, .ok _ => isFalse (by simp)
  | .ok _, .error _ => isFalse (by simp)

/-- Modelled from the spec: a `NestedDict` node (spec section 4.1,
`nested_dict.py` is not under `src/`).  A node carries the integer count
stored when an inserted path terminates at it (0 when no path ever
terminated here) and an insertion-ordered association list of child nodes,
mirroring a Python dict from token to sub-dictionary/count. -/
inductive NestedDict where
  | node (count : ℤ) (children : List (String × NestedDict))

/-- The count stored at a node. -/
def NestedDict.count : NestedDict → ℤ
  | .node c _ => c

/-- The children of a node. -/
def NestedDict.children : NestedDict → List (String × NestedDict)
  | .node _ ch => ch

/-- A freshly constructed `NestedDict()`: no count, no children. -/
def NestedDict.empty : NestedDict := .node 0 []

/-- First value bound to key `w` in an association list of children. -/
def findChild : List (String × NestedDict) → String → Option NestedDict
  | [], _ => none
  | (k, v) :: rest, w => if k = w then some v else findChild rest w

/-- Replace the first binding of key `w` by `c`, or append the binding
`(w, c)` when `w` is absent (Python dicts keep insertion order, so a new
key goes to the end). -/
def replaceChild : List (String × NestedDict) → String → NestedDict → List (String × NestedDict)
  | [], w, c => [(w, c)]
  | (k, v) :: rest, w, c =>
      if k = w then (k, c) :: rest else (k, v) :: replaceChild rest w c

/-- Modelled from the spec: `increment` (called `add_by_path` by
`language_model.py`) walks and creates nodes along `path` and adds `a` to
the count stored at the terminal node, starting from 0 when the terminal
did not previously exist.  The spec's `InvalidPathError` on an empty path
is not modelled: every call in this development passes a non-empty path
(window widths are at least 1); on `[]` this model adds at the root. -/
def NestedDict.add_by_path (t : NestedDict) (path : List String) (a : ℤ) : NestedDict :=
  match path with
  | [] => .node (t.count + a) t.children
  | w :: rest =>
      let child := (findChild t.children w).getD NestedDict.empty
      .node t.count (replaceChild t.children w (child.add_by_path rest a))

/-- Modelled from the spec: `lookup` walks nodes along `path` and returns
the stored count at the terminal if the full path exists, else 0.  It is a
pure read: it takes the trie and returns only an integer. -/
def NestedDict.get_by_path (t : NestedDict) (path : List String) : ℤ :=
  match path with
  | [] => t.count
  | w :: rest =>
      match findChild t.children w with
      | some c => c.get_by_path rest
      | none => 0

/-- Modelled from the spec: `topLevelCounts` / Python `dict.values()` —
the counts stored one level below the root, in insertion order.  Only
meaningful at the root of an order-1 trie, where every child is a
terminal. -/
def NestedDict.values (t : NestedDict) : List ℤ :=
  t.children.map (fun pr => pr.2.count)

/-- The keys one level below the root, in insertion order. -/
def NestedDict.keys (t : NestedDict) : List String :=
  t.children.map Prod.fst

/-- Python list indexing `l[i]`: negative indices count from the end, and
an out-of-range index raises `IndexError`. -/
def pyIndex {α : Type} (l : List α) (i : ℤ) : Except PyError α :=
  let j : ℤ := if i < 0 then i + l.length else i
  if 0 ≤ j then
    match l.get? j.toNat with
    | some a => .ok a
    | none => .error .indexError
  else .error .indexError

/-- Python slice `l[a:b]` for 0 ≤ a ≤ b. -/
def slice (l : List String) (a b : ℕ) : List String :=
  (l.drop a).take (b - a)

/-- Helper for `pySplit`: scan the characters, accumulating the current
word reversed in `acc`. -/
def splitWsAux : List Char → List Char → List String
  | [], acc => if acc.isEmpty then [] else [String.mk acc.reverse]
  | c :: rest, acc =>
      if c.isWhitespace then
        if acc.isEmpty then splitWsAux rest []
        else String.mk acc.reverse :: splitWsAux rest []
      else splitWsAux rest (c :: acc)

/-- Python `str.split()` with no argument: split on runs of whitespace,
discarding empty words and leading/trailing whitespace. -/
def pySplit (s : String) : List String :=
  splitWsAux s.toList []

/-- The per-model preprocessing state of a `LanguageModel`
(language_model.py lines 49-58): the `words` flag, the optional stemmer,
the optional stopword list, and the sentence-level preprocessing function.
`pre` stands for `preprocess_sentence` (utils.py) applied with the model's
`preprocess_params`; the spec scopes that string-level preprocessing as an
external collaborator specified only at its interface (a pure function
from string to string), so it is carried here as an arbitrary function and
the theorems below hold for every choice of it, in particular for the real
one. -/
structure LMParams where
  words : Bool
  stemmer : Option (String → String)
  stopwords_english : Option (List String)
  pre : String → String

/-- The token list produced by the body of `apply_modifications`
(language_model.py lines 164-168) before the boundary markers are added:
optional stopword removal (skipped when the stopword list is `None` or
empty, as Python truthiness does), optional stemming, then tokenization
into words or characters. -/
def mod_tokens (p : LMParams) (sentence : String) : List String :=
  let s1 :=
    match p.stopwords_english with
    | some sw =>
        if sw.isEmpty then sentence
        else String.intercalate " " ((pySplit sentence).filter (fun w => ¬ w ∈ sw))
    | none => sentence
  let s2 :=
    match p.stemmer with
    | some st => String.intercalate " " ((pySplit s1).map st)
    | none => s1
  if p.words then pySplit s2 else s2.toList.map (fun c => String.mk [c])

/-- `apply_modifications` (language_model.py lines 153-170): the modified
token list framed with the boundary markers (line 169). -/
def apply_modifications (p : LMParams) (sentence : String) : List String :=
  ["<s>"] ++ mod_tokens p sentence ++ ["</s>"]

/-- The token sequence the model actually consumes for one raw line:
`preprocess_sentence` followed by `apply_modifications`, exactly as
performed at language_model.py lines 114-115 (build) and 186-187
(scoring). -/
def process_sentence (p : LMParams) (s : String) : List String :=
  apply_modifications p (p.pre s)

/-- The windows of width `j` slid over `line` by `make_models`
(language_model.py lines 116-118): for every ending index `i` from `j` to
`len(line)`, the slice `line[i-j:i]`. -/
def line_windows (line : List String) (j : ℕ) : List (List String) :=
  (List.range' j (line.length + 1 - j)).map (fun i => slice line (i - j) i)

/-- The inner loop of `make_models` for one trie: increment the trie at
every width-`j` window of `line` with amount 1 (language_model.py lines
117-119). -/
def add_windows (t : NestedDict) (j : ℕ) (line : List String) : NestedDict :=
  (List.range' j (line.length + 1 - j)).foldl
    (fun acc i => acc.add_by_path (slice line (i - j) i) 1) t

/-- One preprocessed line's contribution to all the tries: the source
loops `j = 1..N` updating `models[j-1]`, where `models` has length `N`;
expressed as a map over the positions of the list of tries. -/
def count_line (models : List NestedDict) (line : List String) : List NestedDict :=
  (List.range models.length).map
    (fun idx => add_windows (models.getD idx NestedDict.empty) (idx + 1) line)

/-- `make_models` (language_model.py lines 106-120) on the corpus payload:
`corpus` is the list of row strings obtained from the CSV file after the
header row is skipped (the file and CSV handling are I/O glue).  Each row
is preprocessed, modified, then counted at every order from 1 to `N`. -/
def make_models (p : LMParams) (corpus : List String) (N : ℕ) : List NestedDict :=
  corpus.foldl (fun ms row => count_line ms (process_sentence p row))
    (List.replicate N NestedDict.empty)

/-- The trie of order `i + 1` in a list of models — `models[i]` with a
default for out-of-range indices (in-range everywhere it is used). -/
def trieAt (models : List NestedDict) (i : ℕ) : NestedDict :=
  models.getD i NestedDict.empty

/-- `get_relative_freq` (language_model.py lines 122-151).  The vocabulary
size is always taken from `models[0]`; a zero denominator raises
`ZeroDivisionError` exactly where Python's float division would. -/
def get_relative_freq (models : List NestedDict) (words : List String) (alpha : ℚ) :
    Except PyError ℚ :=
  match pyIndex models 0 with
  | .error e => .error e
  | .ok m0 =>
      let voc_size : ℚ := (m0.values.length : ℚ)
      if words.length = 1 then
        let denom : ℚ := (m0.values.sum : ℚ) + alpha * voc_size
        if denom = 0 then .error .zeroDivisionError
        else .ok (((m0.get_by_path words : ℤ) + alpha) / denom)
      else
        match pyIndex models ((words.length : ℤ) - 1) with
        | .error e => .error e
        | .ok mL =>
            match pyIndex models ((words.length : ℤ) - 2) with
            | .error e => .error e
            | .ok mPrev =>
                let denom : ℚ := ((mPrev.get_by_path words.dropLast : ℤ) + alpha * voc_size)
                if denom = 0 then .error .zeroDivisionError
                else .ok (((mL.get_by_path words : ℤ) + alpha) / denom)

/-- The numerator `get_relative_freq` divides by in the non-error case
(count of the queried sequence plus `alpha`, lines 142 and 146-148). -/
def rf_num (models : List NestedDict) (words : List String) (alpha : ℚ) : ℚ :=
  if words.length = 1 then ((trieAt models 0).get_by_path words : ℤ) + alpha
  else ((trieAt models (words.length - 1)).get_by_path words : ℤ) + alpha

/-- The smoothing denominator of `get_relative_freq` (lines 143 and
147-149): the order-1 total (length 1) or the count of the dropped-last
prefix (length > 1), plus `alpha` times the order-1 vocabulary size. -/
def rf_denom (models : List NestedDict) (words : List String) (alpha : ℚ) : ℚ :=
  (if words.length = 1 then ((trieAt models 0).values.sum : ℚ)
   else (((trieAt models (words.length - 2)).get_by_path words.dropLast : ℤ) : ℚ))
  + alpha * ((trieAt models 0).values.length : ℚ)

/-- The value `get_relative_freq` returns in the non-error case, as a
total function. -/
def relFreqQ (models : List NestedDict) (words : List String) (alpha : ℚ) : ℚ :=
  rf_num models words alpha / rf_denom models words alpha

/-- The order used by `compute_prob`: `if not N: N = len(self.models)`
(language_model.py lines 189-190).  Python's truthiness sends both `None`
and `0` to the model's maximum order. -/
def effective_order (models : List NestedDict) (N : Option ℕ) : ℕ :=
  match N with
  | none => models.length
  | some 0 => models.length
  | some (k + 1) => k + 1

/-- The window scored at ending position `i` (language_model.py line
192): `s[0:i]` while `i - n < 0`, else `s[i-n:i]`. -/
def score_window (s : List String) (n i : ℕ) : List String :=
  if (i : ℤ) - (n : ℤ) < 0 then s.take i else (s.drop (i - n)).take (i - (i - n))

/-- The scoring loop of `compute_prob` (language_model.py lines 188-195)
on an already preprocessed token sequence `s`: the accumulator starts at
1, and for each ending position `i` from 1 to `len(s)` the logarithm of
the relative frequency of the window `s[0:i]` (while `i - n < 0`) or
`s[i-n:i]` is added, consulting only `models[:n]`.  `math.log` of a
non-positive value raises a math-domain `ValueError`. -/
noncomputable def compute_prob_tokens (models : List NestedDict) (s : List String)
    (N : Option ℕ) : Except PyError ℝ :=
  let n := effective_order models N
  (List.range' 1 s.length).foldlM
    (fun (acc : ℝ) (i : ℕ) =>
      match get_relative_freq (models.take n) (score_window s n i) 1 with
      | .error e => .error e
      | .ok rf => if rf ≤ 0 then .error .valueErrorMathDomain
                  else .ok (acc + Real.log (rf : ℝ)))
    (1 : ℝ)

/-- `compute_prob` (language_model.py lines 172-195): preprocess and
modify the sentence, then run the scoring loop. -/
noncomputable def compute_prob (p : LMParams) (models : List NestedDict)
    (sentence : String) (N : Option ℕ) : Except PyError ℝ :=
  compute_prob_tokens models (process_sentence p sentence) N

/-! ### Basic trie lemmas -/

@[simp]
theorem NestedDict.get_empty (p : List String) : NestedDict.empty.get_by_path p = 0 := by
  cases p <;> simp [NestedDict.get_by_path, NestedDict.empty, NestedDict.count,
    NestedDict.children, findChild]

@[simp]
theorem NestedDict.values_empty : NestedDict.empty.values = [] := rfl

@[simp]
theorem NestedDict.count_node (c : ℤ) (ch : List (String × NestedDict)) :
    (NestedDict.node c ch).count = c := rfl

@[simp]
theorem NestedDict.children_node (c : ℤ) (ch : List (String × NestedDict)) :
    (NestedDict.node c ch).children = ch := rfl

theorem findChild_replaceChild (ch : List (String × NestedDict)) (w u : String)
    (c : NestedDict) :
    findChild (replaceChild ch w c) u = if u = w then some c else findChild ch u := by
  induction ch with
  | nil =>
    by_cases h : u = w <;> simp [replaceChild, findChild, h]
    intro h2
    exact absurd h2.symm h
  | cons kv rest ih =>
    obtain ⟨k, v⟩ := kv
    by_cases hkw : k = w
    · subst hkw
      by_cases huk : u = k
      · simp [replaceChild, findChild, huk]
      · have hku : ¬ k = u := fun h => huk h.symm
        simp [replaceChild, findChild, huk, hku]
    · by_cases huk : k = u
      · subst huk
        have hne : ¬ k = w := hkw
        simp [replaceChild, findChild, hkw, hne]
      · simp [replaceChild, findChild, hkw, huk, ih]

theorem NestedDict.get_add (p : List String) (t : NestedDict) (q : List String) (a : ℤ) :
    (t.add_by_path p a).get_by_path q
      = t.get_by_path q + (if q = p then a else 0) := by
  induction p generalizing t q with
  | nil =>
    cases q with
    | nil => simp [NestedDict.add_by_path, NestedDict.get_by_path]
    | cons u r => simp [NestedDict.add_by_path, NestedDict.get_by_path]
  | cons w rest ih =>
    cases q with
    | nil => simp [NestedDict.add_by_path, NestedDict.get_by_path]
    | cons u r =>
      by_cases huw : u = w
      · subst huw
        simp only [NestedDict.add_by_path, NestedDict.get_by_path, NestedDict.children_node,
          findChild_replaceChild, if_pos rfl]
        cases hfc : findChild t.children u with
        | some child =>
          simp only [hfc, Option.getD_some]
          simp only [List.cons.injEq, true_and]
          exact ih child r
        | none =>
          simp only [hfc, Option.getD_none]
          simp only [List.cons.injEq, true_and]
          have := ih NestedDict.empty r
          simpa using this
      · simp only [NestedDict.add_by_path, NestedDict.get_by_path, NestedDict.children_node,
          findChild_replaceChild, if_neg huw]
        have : ¬ (u :: r) = (w :: rest) := by simp [huw]
        simp [this]

theorem NestedDict.count_add (t : NestedDict) (p : List String) (a : ℤ) :
    (t.add_by_path p a).count = t.count + (if p = [] then a else 0) := by
  cases p <;> simp [NestedDict.add_by_path]

theorem NestedDict.get_cons_children_ne_nil (t : NestedDict) (w : String) (r : List String)
    (h : t.get_by_path (w :: r) ≠ 0) : t.children ≠ [] := by
  intro hnil
  apply h
  simp [NestedDict.get_by_path, hnil, findChild]

theorem values_sum_replaceChild (ch : List (String × NestedDict)) (w : String) (c : NestedDict) :
    ((replaceChild ch w c).map (fun pr => pr.2.count)).sum
      = (ch.map (fun pr => pr.2.count)).sum + c.count
          - ((findChild ch w).getD NestedDict.empty).count := by
  induction ch with
  | nil => simp [replaceChild, findChild, NestedDict.empty]
  | cons kv rest ih =>
    obtain ⟨k, v⟩ := kv
    by_cases hkw : k = w
    · simp [replaceChild, findChild, hkw]
      ring
    · simp [replaceChild, findChild, hkw, ih]
      ring

theorem NestedDict.values_sum_add (t : NestedDict) (w : String) (rest : List String) (a : ℤ) :
    (t.add_by_path (w :: rest) a).values.sum
      = t.values.sum + (if rest = [] then a else 0) := by
  simp only [NestedDict.add_by_path, NestedDict.values, NestedDict.children_node]
  rw [values_sum_replaceChild, NestedDict.count_add]
  cases hfc : findChild t.children w with
  | some child => simp [hfc]; ring
  | none => simp [hfc, NestedDict.empty]

/-- The evolution of the top-level key list under one insertion: an
existing head key leaves the keys unchanged, a new one is appended. -/
def keyAdd (ks : List String) (w : String) : List String :=
  if w ∈ ks then ks else ks ++ [w]

theorem keys_replaceChild (ch : List (String × NestedDict)) (w : String) (c : NestedDict) :
    (replaceChild ch w c).map Prod.fst = keyAdd (ch.map Prod.fst) w := by
  induction ch with
  | nil => simp [replaceChild, keyAdd]
  | cons kv rest ih =>
    obtain ⟨k, v⟩ := kv
    by_cases hkw : k = w
    · simp [replaceChild, keyAdd, hkw]
    · have : ¬ w = k := fun h => hkw h.symm
      simp [replaceChild, keyAdd, hkw, this, ih]
      by_cases hmem : w ∈ rest.map Prod.fst <;> simp [hmem, this]

theorem NestedDict.keys_add (t : NestedDict) (w : String) (rest : List String) (a : ℤ) :
    (t.add_by_path (w :: rest) a).keys = keyAdd t.keys w := by
  simp only [NestedDict.add_by_path, NestedDict.keys, NestedDict.children_node]
  exact keys_replaceChild _ _ _

@[simp]
theorem NestedDict.keys_add_nil (t : NestedDict) (a : ℤ) :
    (t.add_by_path [] a).keys = t.keys := rfl

theorem NestedDict.values_length_eq_keys_length (t : NestedDict) :
    t.values.length = t.keys.length := by
  simp [NestedDict.values, NestedDict.keys]

/-! ### Folding insertions -/

theorem get_foldl_windows (ws : List (List String)) (t : NestedDict) (p : List String) :
    (ws.foldl (fun acc w => acc.add_by_path w 1) t).get_by_path p
      = t.get_by_path p + (ws.count p : ℤ) := by
  induction ws generalizing t with
  | nil => simp
  | cons w ws ih =>
    simp only [List.foldl_cons]
    rw [ih, NestedDict.get_add]
    by_cases h : p = w
    · subst h
      simp [List.count_cons]
      ring
    · have : ¬ w = p := fun hc => h hc.symm
      simp [List.count_cons, this, h]

theorem get_foldl_pairs (ops : List (List String × ℤ)) (t : NestedDict) (p : List String) :
    (ops.foldl (fun acc pr => acc.add_by_path pr.1 pr.2) t).get_by_path p
      = t.get_by_path p + ((ops.filter (fun pr => pr.1 = p)).map Prod.snd).sum := by
  induction ops generalizing t with
  | nil => simp
  | cons op ops ih =>
    obtain ⟨q, a⟩ := op
    simp only [List.foldl_cons]
    rw [ih, NestedDict.get_add]
    by_cases h : q = p
    · subst h
      simp [List.filter_cons]
      ring
    · have : ¬ p = q := fun hc => h hc.symm
      simp [List.filter_cons, h, this]

theorem add_windows_eq_foldl (t : NestedDict) (j : ℕ) (line : List String) :
    add_windows t j line
      = (line_windows line j).foldl (fun acc w => acc.add_by_path w 1) t := by
  unfold add_windows line_windows
  rw [List.foldl_map]

theorem get_add_windows (t : NestedDict) (j : ℕ) (line : List String) (p : List String) :
    (add_windows t j line).get_by_path p
      = t.get_by_path p + ((line_windows line j).count p : ℤ) := by
  rw [add_windows_eq_foldl, get_foldl_windows]

theorem line_windows_length_of_mem {line w : List String} {j : ℕ}
    (h : w ∈ line_windows line j) : w.length = j := by
  obtain ⟨i, hi, rfl⟩ := List.mem_map.mp h
  rw [List.mem_range'_1] at hi
  simp only [slice, List.length_take, List.length_drop]
  omega

theorem values_sum_foldl_singletons (ws : List (List String)) (t : NestedDict)
    (h : ∀ w ∈ ws, w.length = 1) :
    ((ws.foldl (fun acc w => acc.add_by_path w 1) t)).values.sum
      = t.values.sum + ws.length := by
  induction ws generalizing t with
  | nil => simp
  | cons w ws ih =>
    obtain ⟨x, hx⟩ : ∃ x, w = [x] := by
      have := h w (by simp)
      cases w with
      | nil => simp at this
      | cons x tl =>
        cases tl with
        | nil => exact ⟨x, rfl⟩
        | cons y tl2 => simp at this
    subst hx
    simp only [List.foldl_cons]
    rw [ih _ (fun w hw => h w (by simp [hw])), NestedDict.values_sum_add]
    simp
    ring

theorem values_sum_add_windows_one (t : NestedDict) (line : List String) :
    (add_windows t 1 line).values.sum = t.values.sum + line.length := by
  rw [add_windows_eq_foldl, values_sum_foldl_singletons]
  · congr 1
    simp [line_windows]
  · exact fun w hw => line_windows_length_of_mem hw

theorem mem_keyAdd_self (ks : List String) (w : String) : w ∈ keyAdd ks w := by
  by_cases h : w ∈ ks <;> simp [keyAdd, h]

theorem mem_keyAdd_of_mem {u : String} {ks : List String} (h : u ∈ ks) (w : String) :
    u ∈ keyAdd ks w := by
  by_cases hw : w ∈ ks <;> simp [keyAdd, hw, h]

theorem mem_foldl_keyAdd_of_mem {u : String} {ks : List String} (line : List String)
    (h : u ∈ ks) : u ∈ line.foldl keyAdd ks := by
  induction line generalizing ks with
  | nil => exact h
  | cons x xs ih => exact ih (mem_keyAdd_of_mem h x)

theorem mem_foldl_keyAdd_self {x : String} {line : List String} (ks : List String)
    (h : x ∈ line) : x ∈ line.foldl keyAdd ks := by
  induction line generalizing ks with
  | nil => simp at h
  | cons y ys ih =>
    rcases List.mem_cons.mp h with h1 | h2
    · subst h1
      exact mem_foldl_keyAdd_of_mem ys (mem_keyAdd_self ks x)
    · exact ih _ h2

theorem foldl_keyAdd_id {line ks : List String} (h : ∀ x ∈ line, x ∈ ks) :
    line.foldl keyAdd ks = ks := by
  induction line with
  | nil => rfl
  | cons x xs ih =>
    have hx : keyAdd ks x = ks := by simp [keyAdd, h x (by simp)]
    simp only [List.foldl_cons, hx]
    exact ih (fun y hy => h y (by simp [hy]))

theorem range'_shift (s n : ℕ) :
    List.range' (s + 1) n = (List.range' s n).map (fun m => m + 1) := by
  rw [List.range'_eq_map_range, List.range'_eq_map_range, List.map_map]
  apply List.map_congr_left
  intro a _
  simp only [Function.comp_apply]
  omega

theorem line_windows_nil (j : ℕ) (h : 1 ≤ j) : line_windows [] j = [] := by
  simp only [line_windows, List.length_nil]
  have : 0 + 1 - j = 0 := by omega
  simp [this]

theorem line_windows_cons (x : String) (xs : List String) :
    line_windows (x :: xs) 1 = [x] :: line_windows xs 1 := by
  unfold line_windows
  have h1 : (x :: xs).length + 1 - 1 = xs.length + 1 := by simp
  rw [h1, List.range'_succ, List.map_cons]
  have h2 : slice (x :: xs) (1 - 1) 1 = [x] := by simp [slice]
  rw [h2]
  have h3 : xs.length + 1 - 1 = xs.length := by omega
  rw [h3, range'_shift, List.map_map]
  congr 1
  apply List.map_congr_left
  intro i hi
  rw [List.mem_range'_1] at hi
  obtain ⟨m, rfl⟩ : ∃ m, i = m + 1 := ⟨i - 1, by omega⟩
  simp only [Function.comp_apply, slice]
  have h4 : m + 1 + 1 - 1 = m + 1 := by omega
  have h5 : m + 1 - 1 = m := by omega
  rw [h4, h5]
  have h6 : m + 1 + 1 - (m + 1) = 1 := by omega
  have h7 : m + 1 - m = 1 := by omega
  rw [h6, h7, List.drop_succ_cons]

theorem line_windows_one (line : List String) :
    line_windows line 1 = line.map (fun x => [x]) := by
  induction line with
  | nil => simp [line_windows_nil 1 le_rfl]
  | cons x xs ih => rw [line_windows_cons, ih, List.map_cons]

theorem keys_foldl_single (line : List String) (t : NestedDict) :
    (line.foldl (fun acc x => acc.add_by_path [x] 1) t).keys
      = line.foldl keyAdd t.keys := by
  induction line generalizing t with
  | nil => rfl
  | cons x xs ih =>
    simp only [List.foldl_cons]
    rw [ih, NestedDict.keys_add]

theorem keys_add_windows_one (t : NestedDict) (line : List String) :
    (add_windows t 1 line).keys = line.foldl keyAdd t.keys := by
  rw [add_windows_eq_foldl, line_windows_one, List.foldl_map]
  exact keys_foldl_single line t

/-! ### From one line to the whole model -/

theorem count_line_length (ms : List NestedDict) (line : List String) :
    (count_line ms line).length = ms.length := by
  simp [count_line]

theorem trieAt_count_line {i : ℕ} {ms : List NestedDict} (line : List String)
    (h : i < ms.length) :
    trieAt (count_line ms line) i = add_windows (trieAt ms i) (i + 1) line := by
  simp only [count_line, trieAt, List.getD_eq_getElem?_getD, List.getElem?_map,
    List.getElem?_range, h, if_pos]
  simp [List.getElem?_range, h, trieAt, List.getD_eq_getElem?_getD]

theorem foldl_corpus_trieAt (p : LMParams) (corpus : List String) :
    ∀ (ms : List NestedDict) (i : ℕ), i < ms.length →
      trieAt (corpus.foldl (fun a r => count_line a (process_sentence p r)) ms) i
        = corpus.foldl (fun t r => add_windows t (i + 1) (process_sentence p r)) (trieAt ms i) := by
  induction corpus with
  | nil => intro ms i h; simp
  | cons r rest ih =>
    intro ms i h
    simp only [List.foldl_cons]
    rw [ih _ _ (by rw [count_line_length]; exact h), trieAt_count_line _ h]

theorem make_models_length (p : LMParams) (corpus : List String) (N : ℕ) :
    (make_models p corpus N).length = N := by
  unfold make_models
  have : ∀ (l : List String) (ms : List NestedDict),
      (l.foldl (fun a r => count_line a (process_sentence p r)) ms).length = ms.length := by
    intro l
    induction l with
    | nil => intro ms; rfl
    | cons r rest ih => intro ms; rw [List.foldl_cons, ih, count_line_length]
  rw [this, List.length_replicate]

theorem trieAt_make_models {i N : ℕ} (p : LMParams) (corpus : List String) (h : i < N) :
    trieAt (make_models p corpus N) i
      = corpus.foldl (fun t r => add_windows t (i + 1) (process_sentence p r))
          NestedDict.empty := by
  unfold make_models
  rw [foldl_corpus_trieAt p corpus _ i (by simpa using h)]
  congr 1
  simp [trieAt, List.getD_eq_getElem?_getD, List.getElem?_replicate, h]

theorem get_foldl_add_windows (p : LMParams) (corpus : List String) (j : ℕ)
    (path : List String) :
    ∀ t0 : NestedDict,
      (corpus.foldl (fun t r => add_windows t j (process_sentence p r)) t0).get_by_path path
        = t0.get_by_path path
            + (corpus.map
                (fun r => ((line_windows (process_sentence p r) j).count path : ℤ))).sum := by
  induction corpus with
  | nil => intro t0; simp
  | cons r rest ih =>
    intro t0
    simp only [List.foldl_cons, List.map_cons, List.sum_cons]
    rw [ih, get_add_windows]
    ring

theorem get_make_models {i N : ℕ} (p : LMParams) (corpus : List String)
    (path : List String) (h : i < N) :
    (trieAt (make_models p corpus N) i).get_by_path path
      = (corpus.map
          (fun r => ((line_windows (process_sentence p r) (i + 1)).count path : ℤ))).sum := by
  rw [trieAt_make_models p corpus h, get_foldl_add_windows]
  simp

theorem get_make_models_nonneg (p : LMParams) (corpus : List String) (N i : ℕ)
    (path : List String) :
    0 ≤ (trieAt (make_models p corpus N) i).get_by_path path := by
  by_cases h : i < N
  · rw [get_make_models p corpus path h]
    apply List.sum_nonneg
    intro x hx
    obtain ⟨r, _, rfl⟩ := List.mem_map.mp hx
    exact Int.natCast_nonneg _
  · have hlen : (make_models p corpus N).length ≤ i := by
      rw [make_models_length]; omega
    rw [trieAt, List.getD_eq_default _ _ hlen]
    simp

theorem values_sum_foldl_add_windows_one (p : LMParams) (corpus : List String) :
    ∀ t0 : NestedDict,
      (corpus.foldl (fun t r => add_windows t 1 (process_sentence p r)) t0).values.sum
        = t0.values.sum
            + (corpus.map (fun r => ((process_sentence p r).length : ℤ))).sum := by
  induction corpus with
  | nil => intro t0; simp
  | cons r rest ih =>
    intro t0
    simp only [List.foldl_cons, List.map_cons, List.sum_cons]
    rw [ih, values_sum_add_windows_one]
    ring

theorem values_sum_make_models {N : ℕ} (p : LMParams) (corpus : List String) (h : 0 < N) :
    (trieAt (make_models p corpus N) 0).values.sum
      = (corpus.map (fun r => ((process_sentence p r).length : ℤ))).sum := by
  rw [trieAt_make_models p corpus h, values_sum_foldl_add_windows_one]
  simp [NestedDict.values, NestedDict.empty]

/-! ### Windows of adjacent orders -/

theorem windows_shape (line : List String) (j : ℕ) :
    line_windows line j
      = (List.range (line.length + 1 - j)).map (fun m => slice line m (m + j)) := by
  unfold line_windows
  rw [List.range'_eq_map_range, List.map_map]
  apply List.map_congr_left
  intro m _
  simp only [Function.comp_apply]
  have h1 : j + m - j = m := by omega
  have h2 : j + m = m + j := by omega
  rw [h1, h2]

theorem count_map_le {α β : Type} [BEq α] [LawfulBEq α] [BEq β] [LawfulBEq β]
    (l : List α) (f : α → β) (a : α) : l.count a ≤ (l.map f).count (f a) := by
  induction l with
  | nil => simp
  | cons b l ih =>
    by_cases hba : b = a
    · subst hba
      simp only [List.count_cons, List.map_cons, beq_self_eq_true, if_pos]
      omega
    · have hfb : (f b == f a) = true ∨ (f b == f a) = false := by
        cases h : (f b == f a) <;> simp
      simp only [List.count_cons, List.map_cons, beq_iff_eq, hba, if_false]
      rcases hfb with h | h <;> simp [h] <;> omega

theorem dropLast_slice (line : List String) (m j : ℕ) (h : m + j + 1 ≤ line.length) :
    (slice line m (m + j + 1)).dropLast = slice line m (m + j) := by
  simp only [slice]
  have h1 : m + j + 1 - m = j + 1 := by omega
  have h2 : m + j - m = j := by omega
  rw [h1, h2]
  have hl : ((line.drop m).take (j + 1)).length = j + 1 := by
    simp only [List.length_take, List.length_drop]
    omega
  rw [List.dropLast_eq_take, hl]
  have h3 : j + 1 - 1 = j := by omega
  rw [h3, List.take_take]
  have h4 : j ⊓ (j + 1) = j := by omega
  rw [h4]

theorem count_windows_dropLast_le (line : List String) (j : ℕ) (w : List String) :
    (line_windows line (j + 1)).count w ≤ (line_windows line j).count w.dropLast := by
  calc (line_windows line (j + 1)).count w
      ≤ ((line_windows line (j + 1)).map List.dropLast).count w.dropLast :=
        count_map_le _ _ _
    _ ≤ (line_windows line j).count w.dropLast := by
        apply List.Sublist.count_le
        rw [windows_shape line (j + 1), windows_shape line j, List.map_map]
        have hcong : ∀ m ∈ List.range (line.length + 1 - (j + 1)),
            (List.dropLast ∘ fun m => slice line m (m + (j + 1))) m
              = slice line m (m + j) := by
          intro m hm
          rw [List.mem_range] at hm
          simp only [Function.comp_apply]
          rw [show m + (j + 1) = m + j + 1 from by omega]
          exact dropLast_slice line m j (by omega)
        rw [List.map_congr_left hcong]
        exact List.Sublist.map _ (List.range_sublist.mpr (by omega))

/-! ### Python indexing and the relative-frequency bridge -/

theorem pyIndex_trieAt (models : List NestedDict) (i : ℕ) (h : i < models.length) :
    pyIndex models (i : ℤ) = .ok (trieAt models i) := by
  simp only [pyIndex]
  have h1 : ¬ ((i : ℤ) < 0) := by omega
  rw [if_neg h1, if_pos (by omega : (0 : ℤ) ≤ (i : ℤ))]
  rw [Int.toNat_natCast]
  cases hget : models.get? i with
  | none =>
    rw [List.get?_eq_none] at hget
    omega
  | some a =>
    simp only [trieAt, List.getD_eq_getElem?_getD, ← List.get?_eq_getElem?, hget,
      Option.getD_some]

theorem trieAt_take {models : List NestedDict} {i n : ℕ} (h : i < n) :
    trieAt (models.take n) i = trieAt models i := by
  simp [trieAt, List.getD_eq_getElem?_getD, List.getElem?_take, h]

theorem rf_ok (models : List NestedDict) (words : List String) (alpha : ℚ)
    (hm : models ≠ []) (h1 : 1 ≤ words.length) (h2 : words.length ≤ models.length)
    (hd : rf_denom models words alpha ≠ 0) :
    get_relative_freq models words alpha = .ok (relFreqQ models words alpha) := by
  have hm0 : 0 < models.length := List.length_pos.mpr hm
  have hp0 : pyIndex models 0 = .ok (trieAt models 0) := by
    have := pyIndex_trieAt models 0 hm0
    simpa using this
  by_cases hL : words.length = 1
  · unfold get_relative_freq
    rw [hp0]
    simp only [hL, if_pos]
    rw [if_neg (by simpa [rf_denom, hL] using hd)]
    simp [relFreqQ, rf_num, rf_denom, hL]
  · have hL2 : 2 ≤ words.length := by omega
    unfold get_relative_freq
    rw [hp0]
    simp only [hL, if_false]
    have e1 : ((words.length : ℤ) - 1) = ((words.length - 1 : ℕ) : ℤ) := by omega
    have e2 : ((words.length : ℤ) - 2) = ((words.length - 2 : ℕ) : ℤ) := by omega
    rw [e1, pyIndex_trieAt models _ (by omega), e2, pyIndex_trieAt models _ (by omega)]
    have hd2 : ¬ (((trieAt models (words.length - 2)).get_by_path words.dropLast : ℚ)
        + alpha * ((trieAt models 0).values.length : ℚ) = 0) := by
      simpa [rf_denom, hL] using hd
    simp [hd2, relFreqQ, rf_num, rf_denom, hL]

theorem process_sentence_eq (p : LMParams) (s : String) :
    process_sentence p s = "<s>" :: (mod_tokens p (p.pre s) ++ ["</s>"]) := rfl

theorem one_le_voc (p : LMParams) (corpus : List String) (N : ℕ)
    (hc : corpus ≠ []) (hN : 1 ≤ N) :
    1 ≤ (trieAt (make_models p corpus N) 0).values.length := by
  obtain ⟨r, rest, rfl⟩ : ∃ r rest, corpus = r :: rest := by
    cases corpus with
    | nil => simp at hc
    | cons r rest => exact ⟨r, rest, rfl⟩
  have hmem : ("<s>" : String) ∈ process_sentence p r := by
    rw [process_sentence_eq]
    simp
  have hcount : 1 ≤ (line_windows (process_sentence p r) 1).count ["<s>"] := by
    rw [line_windows_one]
    refine List.count_pos_iff.mpr ?_
    exact List.mem_map.mpr ⟨"<s>", hmem, rfl⟩
  have hget : 0 < (trieAt (make_models p (r :: rest) N) 0).get_by_path ["<s>"] := by
    rw [get_make_models p (r :: rest) _ (by omega)]
    simp only [List.map_cons, List.sum_cons]
    have hrest : 0 ≤ (rest.map
        (fun q => ((line_windows (process_sentence p q) (0 + 1)).count ["<s>"] : ℤ))).sum := by
      apply List.sum_nonneg
      intro x hx
      obtain ⟨q, _, rfl⟩ := List.mem_map.mp hx
      exact Int.natCast_nonneg _
    have : (1 : ℤ) ≤ ((line_windows (process_sentence p r) (0 + 1)).count ["<s>"] : ℤ) := by
      exact_mod_cast hcount
    omega
  have hne : (trieAt (make_models p (r :: rest) N) 0).children ≠ [] :=
    NestedDict.get_cons_children_ne_nil _ "<s>" [] (by omega)
  have : 0 < (trieAt (make_models p (r :: rest) N) 0).children.length :=
    List.length_pos.mpr hne
  simpa [NestedDict.values] using this

theorem values_sum_nonneg (p : LMParams) (corpus : List String) (N : ℕ) (hN : 0 < N) :
    0 ≤ (trieAt (make_models p corpus N) 0).values.sum := by
  rw [values_sum_make_models p corpus hN]
  apply List.sum_nonneg
  intro x hx
  obtain ⟨r, _, rfl⟩ := List.mem_map.mp hx
  exact Int.natCast_nonneg _

theorem rf_denom_pos (p : LMParams) (corpus : List String) (N : ℕ) (words : List String)
    (alpha : ℚ) (hc : corpus ≠ []) (h1 : 1 ≤ words.length) (hW : words.length ≤ N)
    (ha : 0 < alpha) :
    0 < rf_denom (make_models p corpus N) words alpha := by
  have hN : 1 ≤ N := le_trans h1 hW
  have hv : 1 ≤ (trieAt (make_models p corpus N) 0).values.length := one_le_voc p corpus N hc hN
  have hvq : (1 : ℚ) ≤ ((trieAt (make_models p corpus N) 0).values.length : ℚ) := by
    exact_mod_cast hv
  have halpha : alpha ≤ alpha * ((trieAt (make_models p corpus N) 0).values.length : ℚ) :=
    le_mul_of_one_le_right ha.le hvq
  unfold rf_denom
  by_cases hL : words.length = 1
  · rw [if_pos hL]
    have hs : (0 : ℤ) ≤ (trieAt (make_models p corpus N) 0).values.sum :=
      values_sum_nonneg p corpus N (by omega)
    have hsq : (0 : ℚ) ≤ ((trieAt (make_models p corpus N) 0).values.sum : ℚ) := by
      exact_mod_cast hs
    linarith
  · rw [if_neg hL]
    have hg : (0 : ℤ) ≤
        (trieAt (make_models p corpus N) (words.length - 2)).get_by_path words.dropLast :=
      get_make_models_nonneg p corpus N _ _
    have hgq : (0 : ℚ) ≤
        ((trieAt (make_models p corpus N) (words.length - 2)).get_by_path words.dropLast : ℚ) := by
      exact_mod_cast hg
    linarith

theorem rf_num_pos (p : LMParams) (corpus : List String) (N : ℕ) (words : List String)
    (alpha : ℚ) (ha : 0 < alpha) :
    0 < rf_num (make_models p corpus N) words alpha := by
  unfold rf_num
  by_cases hL : words.length = 1
  · rw [if_pos hL]
    have hg : (0 : ℤ) ≤ (trieAt (make_models p corpus N) 0).get_by_path words :=
      get_make_models_nonneg p corpus N _ _
    have hgq : (0 : ℚ) ≤ ((trieAt (make_models p corpus N) 0).get_by_path words : ℚ) := by
      exact_mod_cast hg
    linarith
  · rw [if_neg hL]
    have hg : (0 : ℤ) ≤
        (trieAt (make_models p corpus N) (words.length - 1)).get_by_path words :=
      get_make_models_nonneg p corpus N _ _
    have hgq : (0 : ℚ) ≤
        ((trieAt (make_models p corpus N) (words.length - 1)).get_by_path words : ℚ) := by
      exact_mod_cast hg
    linarith

theorem rf_num_le_denom (p : LMParams) (corpus : List String) (N : ℕ) (words : List String)
    (alpha : ℚ) (hc : corpus ≠ []) (h1 : 1 ≤ words.length) (hW : words.length ≤ N)
    (ha : 0 < alpha) :
    rf_num (make_models p corpus N) words alpha
      ≤ rf_denom (make_models p corpus N) words alpha := by
  have hN : 1 ≤ N := le_trans h1 hW
  have hv : 1 ≤ (trieAt (make_models p corpus N) 0).values.length := one_le_voc p corpus N hc hN
  have hvq : (1 : ℚ) ≤ ((trieAt (make_models p corpus N) 0).values.length : ℚ) := by
    exact_mod_cast hv
  have halpha : alpha ≤ alpha * ((trieAt (make_models p corpus N) 0).values.length : ℚ) :=
    le_mul_of_one_le_right ha.le hvq
  by_cases hL : words.length = 1
  · unfold rf_num rf_denom
    rw [if_pos hL, if_pos hL]
    have hcnt : (trieAt (make_models p corpus N) 0).get_by_path words
        ≤ (trieAt (make_models p corpus N) 0).values.sum := by
      rw [get_make_models p corpus words (by omega), values_sum_make_models p corpus (by omega)]
      apply List.sum_le_sum
      intro r _
      have h := List.count_le_length words (line_windows (process_sentence p r) (0 + 1))
      have hlen : (line_windows (process_sentence p r) (0 + 1)).length
          = (process_sentence p r).length := by
        simp [line_windows]
      rw [hlen] at h
      exact_mod_cast h
    have hq : ((trieAt (make_models p corpus N) 0).get_by_path words : ℚ)
        ≤ ((trieAt (make_models p corpus N) 0).values.sum : ℚ) := by exact_mod_cast hcnt
    linarith
  · have hL2 : 2 ≤ words.length := by omega
    unfold rf_num rf_denom
    rw [if_neg hL, if_neg hL]
    have hcnt : (trieAt (make_models p corpus N) (words.length - 1)).get_by_path words
        ≤ (trieAt (make_models p corpus N) (words.length - 2)).get_by_path words.dropLast := by
      rw [get_make_models p corpus words (by omega),
        get_make_models p corpus words.dropLast (by omega)]
      apply List.sum_le_sum
      intro r _
      have h := count_windows_dropLast_le (process_sentence p r) (words.length - 2 + 1) words
      have e1 : words.length - 2 + 1 + 1 = words.length - 1 + 1 := by omega
      have e2 : words.length - 2 + 1 = words.length - 2 + 1 := rfl
      rw [e1] at h
      exact_mod_cast h
    have hq : ((trieAt (make_models p corpus N) (words.length - 1)).get_by_path words : ℚ)
        ≤ ((trieAt (make_models p corpus N) (words.length - 2)).get_by_path
            words.dropLast : ℚ) := by exact_mod_cast hcnt
    linarith

/-! ### Folding the scoring loop -/

theorem foldlM_ok_sum (g : ℕ → ℝ) (L : List ℕ) (f : ℝ → ℕ → Except PyError ℝ)
    (h : ∀ acc i, i ∈ L → f acc i = .ok (acc + g i)) :
    ∀ a : ℝ, L.foldlM f a = .ok (a + (L.map g).sum) := by
  induction L with
  | nil =>
    intro a
    simp only [List.foldlM_nil, List.map_nil, List.sum_nil, add_zero]
    rfl
  | cons x xs ih =>
    intro a
    rw [List.foldlM_cons, h a x (by simp)]
    have hbind : ((Except.ok (a + g x) : Except PyError ℝ) >>= fun b => xs.foldlM f b)
        = xs.foldlM f (a + g x) := rfl
    rw [hbind, ih (fun acc i hi => h acc i (by simp [hi]))]
    simp only [List.map_cons, List.sum_cons]
    congr 1
    ring

theorem foldlM_error_head (f : ℝ → ℕ → Except PyError ℝ) (a : ℝ) (x : ℕ) (e : PyError)
    (xs : List ℕ) (h : f a x = .error e) : (x :: xs).foldlM f a = .error e := by
  rw [List.foldlM_cons, h]
  rfl

/-! ### Repeated corpora -/

theorem get_make_models_replicate {i N : ℕ} (p : LMParams) (S : String) (m : ℕ)
    (path : List String) (h : i < N) :
    (trieAt (make_models p (List.replicate m S) N) i).get_by_path path
      = m * ((line_windows (process_sentence p S) (i + 1)).count path : ℤ) := by
  rw [get_make_models p _ path h, List.map_replicate, List.sum_replicate]
  simp [nsmul_eq_mul]

theorem values_sum_make_models_replicate {N : ℕ} (p : LMParams) (S : String) (m : ℕ)
    (hN : 0 < N) :
    (trieAt (make_models p (List.replicate m S) N) 0).values.sum
      = m * ((process_sentence p S).length : ℤ) := by
  rw [values_sum_make_models p _ hN, List.map_replicate, List.sum_replicate]
  simp [nsmul_eq_mul]

theorem keys_m0_replicate (p : LMParams) (S : String) (N : ℕ) (hN : 0 < N) (k : ℕ) :
    (trieAt (make_models p (List.replicate (k + 1) S) N) 0).keys
      = (trieAt (make_models p [S] N) 0).keys := by
  induction k with
  | zero => rfl
  | succ m ih =>
    rw [trieAt_make_models p _ hN] at ih ⊢
    rw [List.replicate_succ' (m + 1) S, List.foldl_append]
    simp only [List.foldl_cons, List.foldl_nil]
    rw [keys_add_windows_one, ih]
    apply foldl_keyAdd_id
    intro x hx
    have hsingle : (trieAt (make_models p [S] N) 0).keys
        = (process_sentence p S).foldl keyAdd NestedDict.empty.keys := by
      rw [trieAt_make_models p _ hN]
      simp only [List.foldl_cons, List.foldl_nil]
      rw [keys_add_windows_one]
    rw [trieAt_make_models p _ hN]
    simp only [List.foldl_cons, List.foldl_nil]
    rw [keys_add_windows_one]
    exact mem_foldl_keyAdd_self _ hx

theorem rf_denom_take {models : List NestedDict} {w : List String} {alpha : ℚ} {n : ℕ}
    (hn : 1 ≤ n) (hl : w.length ≤ n) :
    rf_denom (models.take n) w alpha = rf_denom models w alpha := by
  unfold rf_denom
  rw [trieAt_take (show 0 < n by omega)]
  by_cases hL : w.length = 1
  · rw [if_pos hL, if_pos hL]
  · rw [if_neg hL, if_neg hL, trieAt_take (show w.length - 2 < n by omega)]

theorem rf_num_take {models : List NestedDict} {w : List String} {alpha : ℚ} {n : ℕ}
    (hn : 1 ≤ n) (hl : w.length ≤ n) :
    rf_num (models.take n) w alpha = rf_num models w alpha := by
  unfold rf_num
  by_cases hL : w.length = 1
  · rw [if_pos hL, if_pos hL, trieAt_take (show 0 < n by omega)]
  · rw [if_neg hL, if_neg hL, trieAt_take (show w.length - 1 < n by omega)]

theorem relFreqQ_take {models : List NestedDict} {w : List String} {alpha : ℚ} {n : ℕ}
    (hn : 1 ≤ n) (hl : w.length ≤ n) :
    relFreqQ (models.take n) w alpha = relFreqQ models w alpha := by
  unfold relFreqQ
  rw [rf_denom_take hn hl, rf_num_take hn hl]

theorem score_window_length {s : List String} {n i : ℕ} (h1 : 1 ≤ i) (h2 : i ≤ s.length)
    (hn : 1 ≤ n) :
    1 ≤ (score_window s n i).length ∧ (score_window s n i).length ≤ n := by
  unfold score_window
  by_cases hc : (i : ℤ) - (n : ℤ) < 0
  · rw [if_pos hc]
    simp only [List.length_take]
    omega
  · rw [if_neg hc]
    simp only [List.length_take, List.length_drop]
    omega

theorem score_window_one {s : List String} {n : ℕ} (hn : 1 ≤ n) :
    score_window s n 1 = s.take 1 := by
  unfold score_window
  simp only [Nat.cast_one]
  by_cases hc : (1 : ℤ) - (n : ℤ) < 0
  · rw [if_pos hc]
  · rw [if_neg hc]
    have hn1 : n = 1 := by omega
    subst hn1
    simp

theorem effective_order_bounds {M : List NestedDict} {N : Option ℕ} {Nb : ℕ}
    (hMlen : M.length = Nb) (hNb : 1 ≤ Nb)
    (hN : N = none ∨ ∃ k, N = some k ∧ 1 ≤ k ∧ k ≤ Nb) :
    1 ≤ effective_order M N ∧ effective_order M N ≤ Nb := by
  rcases hN with rfl | ⟨k, rfl, hk1, hk2⟩
  · simp [effective_order, hMlen]
    omega
  · cases k with
    | zero => omega
    | succ m => simp [effective_order]; omega

/-! ### Claim theorems -/

/-- A concrete parameter choice used by witnesses: word tokens, no
stemming, no stopword removal, and an identity preprocessing function
(what `preprocess_sentence` computes with all flags off on input that is
already single-spaced). -/
def p0 : LMParams := ⟨true, none, none, fun s => s⟩

/-- C3: for every corpus and order `N`, the built model stores, at any
path of length `j` (1 ≤ j ≤ N) in trie `j-1`, exactly the number of
width-`j` windows `s[i-j:i]` (ending index `i` from `j` to `len(s)`) over
all preprocessed-and-framed training sentences `s` that equal that path:
windows overlap and are not deduplicated, each contributing one increment
of amount 1. -/
theorem C3_build_counts (p : LMParams) (corpus : List String) (N j : ℕ)
    (path : List String) (hj1 : 1 ≤ j) (hjN : j ≤ N) (hlen : path.length = j) :
    (trieAt (make_models p corpus N) (j - 1)).get_by_path path
      = (corpus.map
          (fun r => ((line_windows (process_sentence p r) j).count path : ℤ))).sum := by
  have h := get_make_models p corpus path (show j - 1 < N by omega)
  rw [show j - 1 + 1 = j from by omega] at h
  exact h

theorem C3_build_counts_witness :
    (1 ≤ 1 ∧ 1 ≤ 2 ∧ ([("a" : String)]).length = 1)
    ∧ (trieAt (make_models p0 ["a b"] 2) (1 - 1)).get_by_path ["a"]
        = ((["a b"] : List String).map
            (fun r => ((line_windows (process_sentence p0 r) 1).count ["a"] : ℤ))).sum :=
  ⟨by decide, C3_build_counts p0 ["a b"] 2 1 ["a"] (by decide) (by decide) (by decide)⟩

/-- C1: on a trained model (built from a non-empty corpus of order `N`),
for query sequences of length 1 the relative frequency is
`(count + alpha) / (sum of order-1 counts + alpha * V)`, and for longer
sequences it is `(count + alpha) / (count of the dropped-last prefix +
alpha * V)`, where `V` is the number of distinct order-1 entries — the
order-1 vocabulary size is the smoothing normalizer at every order. -/
theorem C1_relative_freq_formula (p : LMParams) (corpus : List String) (N : ℕ)
    (words : List String) (alpha : ℚ) (hc : corpus ≠ []) (h1 : 1 ≤ words.length)
    (hW : words.length ≤ N) (ha : 0 < alpha) :
    (words.length = 1 →
      get_relative_freq (make_models p corpus N) words alpha
        = .ok ((((trieAt (make_models p corpus N) 0).get_by_path words : ℚ) + alpha)
            / (((trieAt (make_models p corpus N) 0).values.sum : ℚ)
                + alpha * ((trieAt (make_models p corpus N) 0).values.length : ℚ))))
    ∧ (2 ≤ words.length →
      get_relative_freq (make_models p corpus N) words alpha
        = .ok ((((trieAt (make_models p corpus N) (words.length - 1)).get_by_path
                words : ℚ) + alpha)
            / (((trieAt (make_models p corpus N) (words.length - 2)).get_by_path
                  words.dropLast : ℚ)
                + alpha * ((trieAt (make_models p corpus N) 0).values.length : ℚ)))) := by
  have hmne : make_models p corpus N ≠ [] := by
    intro hnil
    have hl := make_models_length p corpus N
    rw [hnil] at hl
    simp at hl
    omega
  have hlen : words.length ≤ (make_models p corpus N).length := by
    rw [make_models_length]
    exact hW
  have hdne : rf_denom (make_models p corpus N) words alpha ≠ 0 :=
    ne_of_gt (rf_denom_pos p corpus N words alpha hc h1 hW ha)
  have hok := rf_ok (make_models p corpus N) words alpha hmne h1 hlen hdne
  constructor
  · intro hL
    rw [hok]
    unfold relFreqQ rf_num rf_denom
    rw [if_pos hL, if_pos hL]
  · intro hL2
    have hL : ¬ words.length = 1 := by omega
    rw [hok]
    unfold relFreqQ rf_num rf_denom
    rw [if_neg hL, if_neg hL]

theorem C1_relative_freq_formula_witness :
    ((["a b"] : List String) ≠ [] ∧ (0 : ℚ) < 1)
    ∧ get_relative_freq (make_models p0 ["a b"] 2) ["a"] 1
        = .ok ((((trieAt (make_models p0 ["a b"] 2) 0).get_by_path ["a"] : ℚ) + 1)
            / (((trieAt (make_models p0 ["a b"] 2) 0).values.sum : ℚ)
                + 1 * ((trieAt (make_models p0 ["a b"] 2) 0).values.length : ℚ))) :=
  ⟨⟨by decide, one_pos⟩,
    (C1_relative_freq_formula p0 ["a b"] 2 ["a"] 1 (by decide) (by decide) (by decide)
      one_pos).1 rfl⟩

/-- C9: for any trie reachable by a sequence of insertions from a fresh
`NestedDict`, looking up a path that was never inserted returns 0;
`get_by_path` is a pure function of the trie and the path (it returns
only an integer and takes the trie unchanged), so repeated lookups return
the same value and cannot create entries. -/
theorem C9_lookup_never_inserted (ops : List (List String × ℤ)) (path : List String)
    (h : path ∉ ops.map Prod.fst) :
    (ops.foldl (fun t pr => t.add_by_path pr.1 pr.2) NestedDict.empty).get_by_path path
      = 0 := by
  rw [get_foldl_pairs]
  have hfil : ops.filter (fun pr => pr.1 = path) = [] := by
    rw [List.filter_eq_nil_iff]
    intro pr hpr
    simp only [decide_eq_true_eq]
    intro heq
    exact h (List.mem_map.mpr ⟨pr, hpr, heq⟩)
  rw [hfil]
  simp

theorem C9_lookup_never_inserted_witness :
    (["b"] ∉ ([(["a"], 2), (["a", "b"], 3)].map Prod.fst))
    ∧ ([(["a"], 2), (["a", "b"], 3)].foldl
        (fun t pr => t.add_by_path pr.1 pr.2) NestedDict.empty).get_by_path ["b"] = 0 :=
  ⟨by decide, C9_lookup_never_inserted [(["a"], 2), (["a", "b"], 3)] ["b"] (by decide)⟩

/-- C10: for every preprocessing configuration and every input sentence
string, the token sequence consumed by both build and scoring is
`apply_modifications` of the preprocessed string, and it always begins
with `<s>` and ends with `</s>` — the boundary markers are appended by
`apply_modifications` itself, not required in the caller's input. -/
theorem C10_internal_boundary_markers (p : LMParams) (line : String) :
    process_sentence p line = apply_modifications p (p.pre line)
    ∧ (process_sentence p line).head? = some "<s>"
    ∧ (process_sentence p line).getLast? = some "</s>"
    ∧ (∀ corpus N, make_models p corpus N
        = corpus.foldl (fun ms row => count_line ms (process_sentence p row))
            (List.replicate N NestedDict.empty))
    ∧ (∀ models sentence N, compute_prob p models sentence N
        = compute_prob_tokens models (process_sentence p sentence) N) := by
  refine ⟨rfl, ?_, ?_, fun _ _ => rfl, fun _ _ _ => rfl⟩
  · rw [process_sentence_eq]
    rfl
  · rw [process_sentence_eq]
    rw [show ("<s>" :: (mod_tokens p (p.pre line) ++ ["</s>"]))
        = (("<s>" :: mod_tokens p (p.pre line)) ++ ["</s>"]) from rfl]
    exact List.getLast?_concat _

/-- C6: on a model built from at least one training sentence, with any
`alpha > 0` and any query sequence of length between 1 and the model's
order, the smoothing denominator of `get_relative_freq` is strictly
positive (the order-1 vocabulary size is at least 1), so the division
succeeds: no `ZeroDivisionError` is raised. -/
theorem C6_denominator_positive (p : LMParams) (corpus : List String) (N : ℕ)
    (words : List String) (alpha : ℚ) (hc : corpus ≠ []) (h1 : 1 ≤ words.length)
    (hW : words.length ≤ N) (ha : 0 < alpha) :
    0 < rf_denom (make_models p corpus N) words alpha
    ∧ get_relative_freq (make_models p corpus N) words alpha
        = .ok (relFreqQ (make_models p corpus N) words alpha) := by
  have hpos := rf_denom_pos p corpus N words alpha hc h1 hW ha
  have hmne : make_models p corpus N ≠ [] := by
    intro hnil
    have hl := make_models_length p corpus N
    rw [hnil] at hl
    simp at hl
    omega
  have hlen : words.length ≤ (make_models p corpus N).length := by
    rw [make_models_length]
    exact hW
  exact ⟨hpos, rf_ok (make_models p corpus N) words alpha hmne h1 hlen (ne_of_gt hpos)⟩

theorem C6_denominator_positive_witness :
    ((["a b"] : List String) ≠ [] ∧ (0 : ℚ) < 1)
    ∧ 0 < rf_denom (make_models p0 ["a b"] 2) ["a", "b"] 1
    ∧ get_relative_freq (make_models p0 ["a b"] 2) ["a", "b"] 1
        = .ok (relFreqQ (make_models p0 ["a b"] 2) ["a", "b"] 1) :=
  ⟨⟨by decide, one_pos⟩,
    C6_denominator_positive p0 ["a b"] 2 ["a", "b"] 1 (by decide) (by decide) (by decide)
      one_pos⟩

/-- C7: on a model built from at least one training sentence, with any
`alpha > 0` and any query sequence of length between 1 and the model's
order, `get_relative_freq` returns a value in the interval (0, 1]. -/
theorem C7_relative_freq_in_unit_interval (p : LMParams) (corpus : List String) (N : ℕ)
    (words : List String) (alpha : ℚ) (hc : corpus ≠ []) (h1 : 1 ≤ words.length)
    (hW : words.length ≤ N) (ha : 0 < alpha) :
    get_relative_freq (make_models p corpus N) words alpha
      = .ok (relFreqQ (make_models p corpus N) words alpha)
    ∧ 0 < relFreqQ (make_models p corpus N) words alpha
    ∧ relFreqQ (make_models p corpus N) words alpha ≤ 1 := by
  have hpos := rf_denom_pos p corpus N words alpha hc h1 hW ha
  have hnum := rf_num_pos p corpus N words alpha ha
  have hle := rf_num_le_denom p corpus N words alpha hc h1 hW ha
  have hmne : make_models p corpus N ≠ [] := by
    intro hnil
    have hl := make_models_length p corpus N
    rw [hnil] at hl
    simp at hl
    omega
  have hlen : words.length ≤ (make_models p corpus N).length := by
    rw [make_models_length]
    exact hW
  refine ⟨rf_ok (make_models p corpus N) words alpha hmne h1 hlen (ne_of_gt hpos), ?_, ?_⟩
  · exact div_pos hnum hpos
  · exact (div_le_one hpos).mpr hle

theorem C7_relative_freq_in_unit_interval_witness :
    ((["a b"] : List String) ≠ [] ∧ (0 : ℚ) < 1)
    ∧ get_relative_freq (make_models p0 ["a b"] 2) ["a", "b"] 1
        = .ok (relFreqQ (make_models p0 ["a b"] 2) ["a", "b"] 1)
    ∧ 0 < relFreqQ (make_models p0 ["a b"] 2) ["a", "b"] 1
    ∧ relFreqQ (make_models p0 ["a b"] 2) ["a", "b"] 1 ≤ 1 :=
  ⟨⟨by decide, one_pos⟩,
    C7_relative_freq_in_unit_interval p0 ["a b"] 2 ["a", "b"] 1 (by decide) (by decide)
      (by decide) one_pos⟩

/-- C2: on a trained model of maximum order `Nb` (non-empty corpus), for
every sentence and every requested order `N` (either unspecified or a
positive order at most `Nb`), `compute_prob` returns the accumulator
seeded with 1 plus the sum, over ending positions `i` from 1 to the
length of the processed token sequence, of the natural logarithm of the
relative frequency (alpha = 1) of the window `s[0:i]` when `i - n < 0`
and `s[i-n:i]` otherwise, where `n` is `N` if specified else `Nb`, and
only the first `n` orders of the model are consulted. -/
theorem C2_compute_prob_log_sum (p : LMParams) (corpus : List String) (Nb : ℕ)
    (sentence : String) (N : Option ℕ) (hc : corpus ≠ []) (hNb : 1 ≤ Nb)
    (hN : N = none ∨ ∃ k, N = some k ∧ 1 ≤ k ∧ k ≤ Nb) :
    compute_prob p (make_models p corpus Nb) sentence N
      = .ok (1 + ((List.range' 1 (process_sentence p sentence).length).map
          (fun i => Real.log (relFreqQ
            ((make_models p corpus Nb).take
              (effective_order (make_models p corpus Nb) N))
            (score_window (process_sentence p sentence)
              (effective_order (make_models p corpus Nb) N) i)
            1))).sum) := by
  have hMlen : (make_models p corpus Nb).length = Nb := make_models_length p corpus Nb
  obtain ⟨hn1, hnNb⟩ := effective_order_bounds hMlen hNb hN
  unfold compute_prob compute_prob_tokens
  apply foldlM_ok_sum
  intro acc i hi
  rw [List.mem_range'_1] at hi
  obtain ⟨hwl, hwu⟩ :=
    @score_window_length (process_sentence p sentence)
      (effective_order (make_models p corpus Nb) N) i hi.1 (by omega) hn1
  have htklen : ((make_models p corpus Nb).take
      (effective_order (make_models p corpus Nb) N)).length
      = effective_order (make_models p corpus Nb) N := by
    rw [List.length_take]
    omega
  have htkne : ((make_models p corpus Nb).take
      (effective_order (make_models p corpus Nb) N)) ≠ [] := by
    intro hnil
    rw [hnil] at htklen
    simp at htklen
    omega
  have hdpos : 0 < rf_denom ((make_models p corpus Nb).take
      (effective_order (make_models p corpus Nb) N))
      (score_window (process_sentence p sentence)
        (effective_order (make_models p corpus Nb) N) i) 1 := by
    rw [rf_denom_take hn1 hwu]
    exact rf_denom_pos p corpus Nb _ 1 hc hwl (by omega) one_pos
  have hok := rf_ok _ _ 1 htkne hwl (by omega) (ne_of_gt hdpos)
  rw [hok]
  have hrfpos : 0 < relFreqQ ((make_models p corpus Nb).take
      (effective_order (make_models p corpus Nb) N))
      (score_window (process_sentence p sentence)
        (effective_order (make_models p corpus Nb) N) i) 1 := by
    unfold relFreqQ
    apply div_pos _ hdpos
    rw [rf_num_take hn1 hwu]
    exact rf_num_pos p corpus Nb _ 1 one_pos
  simp only [not_le.mpr hrfpos, if_false]

theorem C2_compute_prob_log_sum_witness :
    ((["a b"] : List String) ≠ [] ∧ 1 ≤ 2
      ∧ ((none : Option ℕ) = none ∨ ∃ k, (none : Option ℕ) = some k ∧ 1 ≤ k ∧ k ≤ 2))
    ∧ compute_prob p0 (make_models p0 ["a b"] 2) "a" none
        = .ok (1 + ((List.range' 1 (process_sentence p0 "a").length).map
            (fun i => Real.log (relFreqQ
              ((make_models p0 ["a b"] 2).take
                (effective_order (make_models p0 ["a b"] 2) none))
              (score_window (process_sentence p0 "a")
                (effective_order (make_models p0 ["a b"] 2) none) i)
              1))).sum) :=
  ⟨⟨by decide, by decide, Or.inl rfl⟩,
    C2_compute_prob_log_sum p0 ["a b"] 2 "a" none (by decide) (by decide) (Or.inl rfl)⟩

/-! ### Evaluating relative frequencies on concrete models -/

theorem rf_len1_concrete (models : List NestedDict) (w : String) (c s : ℤ) (v : ℕ)
    (hne : models ≠ [])
    (hc : (trieAt models 0).get_by_path [w] = c)
    (hs : (trieAt models 0).values.sum = s)
    (hv : (trieAt models 0).values.length = v)
    (hd : ((s : ℚ) + 1 * (v : ℚ)) ≠ 0) :
    get_relative_freq models [w] 1 = .ok (((c : ℚ) + 1) / ((s : ℚ) + 1 * (v : ℚ))) := by
  have hlen : ([w] : List String).length ≤ models.length := by
    have := List.length_pos.mpr hne
    simp
    omega
  have hdenom : rf_denom models [w] 1 = (s : ℚ) + 1 * (v : ℚ) := by
    unfold rf_denom
    rw [if_pos (by simp : ([w] : List String).length = 1), hs, hv]
  have hok := rf_ok models [w] 1 hne (by simp) hlen (by rw [hdenom]; exact hd)
  rw [hok]
  unfold relFreqQ rf_num
  rw [if_pos (by simp : ([w] : List String).length = 1), hc, hdenom]

theorem rf_len2_concrete (models : List NestedDict) (w1 w2 : String) (c cp : ℤ) (v : ℕ)
    (hlen2 : 2 ≤ models.length)
    (hc : (trieAt models 1).get_by_path [w1, w2] = c)
    (hcp : (trieAt models 0).get_by_path [w1] = cp)
    (hv : (trieAt models 0).values.length = v)
    (hd : ((cp : ℚ) + 1 * (v : ℚ)) ≠ 0) :
    get_relative_freq models [w1, w2] 1
      = .ok (((c : ℚ) + 1) / ((cp : ℚ) + 1 * (v : ℚ))) := by
  have hne : models ≠ [] := by
    intro h
    rw [h] at hlen2
    simp at hlen2
  have hL : ¬ ([w1, w2] : List String).length = 1 := by simp
  have e0 : ([w1, w2] : List String).length - 2 = 0 := rfl
  have e1 : ([w1, w2] : List String).length - 1 = 1 := rfl
  have edrop : ([w1, w2] : List String).dropLast = [w1] := rfl
  have hdenom : rf_denom models [w1, w2] 1 = (cp : ℚ) + 1 * (v : ℚ) := by
    unfold rf_denom
    rw [if_neg hL, e0, edrop, hcp, hv]
  have hok := rf_ok models [w1, w2] 1 hne (by simp) (by simpa using hlen2)
    (by rw [hdenom]; exact hd)
  rw [hok]
  unfold relFreqQ rf_num
  rw [if_neg hL, e1, hc, hdenom]

theorem rf_empty_model (q : LMParams) (N : ℕ) (words : List String) (alpha : ℚ)
    (h1 : 1 ≤ words.length) (hW : words.length ≤ N) :
    get_relative_freq (make_models q [] N) words alpha = .error .zeroDivisionError := by
  have hrep : make_models q [] N = List.replicate N NestedDict.empty := rfl
  rw [hrep]
  have hN : 1 ≤ N := le_trans h1 hW
  have hlen : (List.replicate N NestedDict.empty).length = N := by simp
  have htri : ∀ i, i < N → trieAt (List.replicate N NestedDict.empty) i = NestedDict.empty := by
    intro i hi
    simp [trieAt, List.getD_eq_getElem?_getD, List.getElem?_replicate, hi]
  have hp0 : pyIndex (List.replicate N NestedDict.empty) 0 = .ok NestedDict.empty := by
    have h := pyIndex_trieAt (List.replicate N NestedDict.empty) 0 (by omega)
    rw [htri 0 (by omega)] at h
    simpa using h
  unfold get_relative_freq
  rw [hp0]
  by_cases hL : words.length = 1
  · simp only [hL, if_pos]
    simp
  · simp only [hL, if_false]
    have e1 : ((words.length : ℤ) - 1) = ((words.length - 1 : ℕ) : ℤ) := by omega
    have e2 : ((words.length : ℤ) - 2) = ((words.length - 2 : ℕ) : ℤ) := by omega
    have hq1 : pyIndex (List.replicate N NestedDict.empty) ((words.length - 1 : ℕ) : ℤ)
        = .ok NestedDict.empty := by
      have h := pyIndex_trieAt (List.replicate N NestedDict.empty) (words.length - 1) (by omega)
      rw [htri _ (by omega)] at h
      exact h
    have hq2 : pyIndex (List.replicate N NestedDict.empty) ((words.length - 2 : ℕ) : ℤ)
        = .ok NestedDict.empty := by
      have h := pyIndex_trieAt (List.replicate N NestedDict.empty) (words.length - 2) (by omega)
      rw [htri _ (by omega)] at h
      exact h
    rw [e1, hq1, e2, hq2]
    simp

/-- C5 corrected: calling `get_relative_freq` or `compute_prob` on a model
built from zero training sentences raises `ZeroDivisionError` — the
vocabulary size and all counts are 0, so the smoothing denominator is 0
and Python's float division fails; the code contains no `EmptyModelError`
guard. -/
theorem C5_empty_model_zero_division (p q : LMParams) (N : ℕ) (words : List String)
    (sentence : String) (alpha : ℚ) (h1 : 1 ≤ words.length) (hW : words.length ≤ N) :
    get_relative_freq (make_models q [] N) words alpha = .error .zeroDivisionError
    ∧ compute_prob p (make_models q [] N) sentence none = .error .zeroDivisionError := by
  have hN : 1 ≤ N := le_trans h1 hW
  refine ⟨rf_empty_model q N words alpha h1 hW, ?_⟩
  unfold compute_prob compute_prob_tokens
  have hMlen : (make_models q [] N).length = N := make_models_length q [] N
  have hn : effective_order (make_models q [] N) none = N := by
    simp [effective_order, hMlen]
  obtain ⟨tl, htl⟩ : ∃ tl, process_sentence p sentence = "<s>" :: tl :=
    ⟨_, process_sentence_eq p sentence⟩
  rw [htl]
  simp only [List.length_cons]
  rw [List.range'_succ]
  apply foldlM_error_head
  rw [hn]
  have hwin : score_window ("<s>" :: tl) N 1 = ["<s>"] := by
    rw [score_window_one hN]
    rfl
  rw [hwin]
  have htake : (make_models q [] N).take N = make_models q [] N :=
    List.take_of_length_le (by omega)
  rw [htake]
  rw [rf_empty_model q N ["<s>"] 1 (by simp) (by simpa using hN)]

theorem C5_counterexample :
    get_relative_freq (make_models p0 [] 2) ["a"] 1 = .error .zeroDivisionError
    ∧ (Except.error PyError.zeroDivisionError : Except PyError ℚ)
        ≠ .error .emptyModelError := by
  constructor
  · exact rf_empty_model p0 2 ["a"] 1 (by decide) (by decide)
  · intro h
    injection h with h2
    exact absurd h2 (by decide)

/-- C4 corrected: for the corpus whose single raw sentence is
`"<s> a b </s>"`, the code preprocesses and re-frames the sentence, so
with marker-preserving preprocessing (all flags off) the order-1 count of
`<s>` is 2, not 1, and `relativeFrequency(["a"], 1)` is 1/5, not 0.25:
the spec's scenario counts are wrong for the code. -/
theorem C4_counterexample :
    (trieAt (make_models p0 ["<s> a b </s>"] 2) 0).get_by_path ["<s>"] = 2
    ∧ get_relative_freq (make_models p0 ["<s> a b </s>"] 2) ["a"] 1 = .ok (1 / 5)
    ∧ get_relative_freq (make_models p0 ["<s> a b </s>"] 2) ["a"] 1 ≠ .ok (1 / 4) := by
  have hval : get_relative_freq (make_models p0 ["<s> a b </s>"] 2) ["a"] 1
      = .ok (((1 : ℚ) + 1) / ((6 : ℚ) + 1 * (4 : ℚ))) := by
    have h := rf_len1_concrete (make_models p0 ["<s> a b </s>"] 2) "a" 1 6 4
      (by
        intro hnil
        have hl := make_models_length p0 ["<s> a b </s>"] 2
        rw [hnil] at hl
        simp at hl)
      (by decide) (by decide) (by decide) (by norm_num)
    rw [h]
    norm_num
  refine ⟨by decide, ?_, ?_⟩
  · rw [hval]
    norm_num
  · rw [hval]
    intro h
    injection h with h2
    norm_num at h2

/-- C4 amended: for a corpus of one sentence whose preprocessed and
boundary-framed token sequence is `[<s>, a, b, </s>]` (for example the
raw sentence `"a b"` with trivial preprocessing) and N = 2, the order-1
counts are `a`:1, `b`:1, `<s>`:1, `</s>`:1 with vocabulary size 4, the
order-2 counts are `(<s>,a)`:1, `(a,b)`:1, `(b,</s>)`:1, and
`relativeFrequency(["a"], 1) = 0.25`,
`relativeFrequency(["a","b"], 1) = 0.4`. -/
theorem C4_amended_scenario (p : LMParams) (line : String)
    (h : process_sentence p line = ["<s>", "a", "b", "</s>"]) :
    (trieAt (make_models p [line] 2) 0).get_by_path ["a"] = 1
    ∧ (trieAt (make_models p [line] 2) 0).get_by_path ["b"] = 1
    ∧ (trieAt (make_models p [line] 2) 0).get_by_path ["<s>"] = 1
    ∧ (trieAt (make_models p [line] 2) 0).get_by_path ["</s>"] = 1
    ∧ (trieAt (make_models p [line] 2) 0).values.length = 4
    ∧ (trieAt (make_models p [line] 2) 1).get_by_path ["<s>", "a"] = 1
    ∧ (trieAt (make_models p [line] 2) 1).get_by_path ["a", "b"] = 1
    ∧ (trieAt (make_models p [line] 2) 1).get_by_path ["b", "</s>"] = 1
    ∧ get_relative_freq (make_models p [line] 2) ["a"] 1 = .ok (1 / 4)
    ∧ get_relative_freq (make_models p [line] 2) ["a", "b"] 1 = .ok (2 / 5) := by
  have hM : make_models p [line] 2
      = count_line (List.replicate 2 NestedDict.empty) ["<s>", "a", "b", "</s>"] := by
    unfold make_models
    rw [List.foldl_cons, List.foldl_nil, h]
  rw [hM]
  have hne : count_line (List.replicate 2 NestedDict.empty) ["<s>", "a", "b", "</s>"] ≠ [] := by
    intro hnil
    have hl := count_line_length (List.replicate 2 NestedDict.empty) ["<s>", "a", "b", "</s>"]
    rw [hnil] at hl
    simp at hl
  have hlen2 : 2 ≤ (count_line (List.replicate 2 NestedDict.empty)
      ["<s>", "a", "b", "</s>"]).length := by
    rw [count_line_length]
    simp
  have hrf1 : get_relative_freq
      (count_line (List.replicate 2 NestedDict.empty) ["<s>", "a", "b", "</s>"]) ["a"] 1
      = .ok (((1 : ℚ) + 1) / ((4 : ℚ) + 1 * (4 : ℚ))) := by
    have hh := rf_len1_concrete
      (count_line (List.replicate 2 NestedDict.empty) ["<s>", "a", "b", "</s>"])
      "a" 1 4 4 hne (by decide) (by decide) (by decide) (by norm_num)
    rw [hh]
    norm_num
  have hrf2 : get_relative_freq
      (count_line (List.replicate 2 NestedDict.empty) ["<s>", "a", "b", "</s>"])
      ["a", "b"] 1
      = .ok (((1 : ℚ) + 1) / ((1 : ℚ) + 1 * (4 : ℚ))) := by
    have hh := rf_len2_concrete
      (count_line (List.replicate 2 NestedDict.empty) ["<s>", "a", "b", "</s>"])
      "a" "b" 1 1 4 hlen2 (by decide) (by decide) (by decide) (by norm_num)
    rw [hh]
    norm_num
  refine ⟨by decide, by decide, by decide, by decide, by decide, by decide, by decide,
    by decide, ?_, ?_⟩
  · rw [hrf1]
    norm_num
  · rw [hrf2]
    norm_num

theorem C4_amended_scenario_witness :
    (process_sentence p0 "a b" = ["<s>", "a", "b", "</s>"])
    ∧ get_relative_freq (make_models p0 ["a b"] 2) ["a"] 1 = .ok (1 / 4)
    ∧ get_relative_freq (make_models p0 ["a b"] 2) ["a", "b"] 1 = .ok (2 / 5) := by
  have hproc : process_sentence p0 "a b" = ["<s>", "a", "b", "</s>"] := by decide
  have h := C4_amended_scenario p0 "a b" hproc
  exact ⟨hproc, h.2.2.2.2.2.2.2.2.1, h.2.2.2.2.2.2.2.2.2⟩

theorem dropLast_mem_windows {s w : List String} {j : ℕ} (hj : 2 ≤ j)
    (hw : w ∈ line_windows s j) : w.dropLast ∈ line_windows s (j - 1) := by
  rw [windows_shape] at hw
  obtain ⟨m, hm, rfl⟩ := List.mem_map.mp hw
  rw [List.mem_range] at hm
  rw [windows_shape]
  apply List.mem_map.mpr
  refine ⟨m, ?_, ?_⟩
  · rw [List.mem_range]
    omega
  · have h1 : m + (j - 1) + 1 = m + j := by omega
    have h2 := dropLast_slice s m (j - 1) (by omega : m + (j - 1) + 1 ≤ s.length)
    rw [h1] at h2
    exact h2.symm

theorem process_sentence_length_pos (p : LMParams) (S : String) :
    1 ≤ (process_sentence p S).length := by
  rw [process_sentence_eq]
  simp

/-- C8: build the model from the sentence `S` repeated `k + 1` times.  For
any window `w` of `S` (after preprocessing and framing) of any order `j`
up to the model's maximum, the smoothed relative frequency of `w` at
alpha = 1 is a well-defined value, scales monotonically in `k` (it is
monotone or antitone as a function of the repetition count), and tends,
as `k` grows, to the unsmoothed empirical ratio of the window: count
divided by total tokens at order 1, count divided by the count of the
dropped-last prefix at higher orders. -/
theorem C8_repeated_corpus_monotone (p : LMParams) (S : String) (N j : ℕ)
    (w : List String) (hj1 : 1 ≤ j) (hjN : j ≤ N)
    (hw : w ∈ line_windows (process_sentence p S) j) :
    (∀ k : ℕ, get_relative_freq (make_models p (List.replicate (k + 1) S) N) w 1
        = .ok (relFreqQ (make_models p (List.replicate (k + 1) S) N) w 1))
    ∧ ((Monotone fun k : ℕ => relFreqQ (make_models p (List.replicate (k + 1) S) N) w 1)
        ∨ (Antitone fun k : ℕ => relFreqQ (make_models p (List.replicate (k + 1) S) N) w 1))
    ∧ Filter.Tendsto
        (fun k : ℕ => ((relFreqQ (make_models p (List.replicate (k + 1) S) N) w 1 : ℚ) : ℝ))
        Filter.atTop
        (nhds (((line_windows (process_sentence p S) j).count w : ℝ)
          / (if j = 1 then ((process_sentence p S).length : ℝ)
             else ((line_windows (process_sentence p S) (j - 1)).count w.dropLast : ℝ)))) := by
  have hN : 1 ≤ N := le_trans hj1 hjN
  have hwlen : w.length = j := line_windows_length_of_mem hw
  set s : List String := process_sentence p S with hs
  set c : ℕ := (line_windows s j).count w with hc
  set d : ℕ := if j = 1 then s.length else (line_windows s (j - 1)).count w.dropLast with hd
  set V : ℕ := (trieAt (make_models p [S] N) 0).values.length with hV
  have hd1 : 1 ≤ d := by
    rw [hd]
    by_cases hj : j = 1
    · rw [if_pos hj]
      exact process_sentence_length_pos p S
    · rw [if_neg hj]
      exact List.count_pos_iff.mpr (dropLast_mem_windows (by omega) hw)
  have hV1 : 1 ≤ V := one_le_voc p [S] N (by simp) hN
  have hVk : ∀ k : ℕ,
      (trieAt (make_models p (List.replicate (k + 1) S) N) 0).values.length = V := by
    intro k
    rw [NestedDict.values_length_eq_keys_length, keys_m0_replicate p S N (by omega) k, hV,
      NestedDict.values_length_eq_keys_length]
  have hnum : ∀ k : ℕ,
      rf_num (make_models p (List.replicate (k + 1) S) N) w 1
        = ((k : ℚ) + 1) * (c : ℚ) + 1 := by
    intro k
    unfold rf_num
    by_cases hj : j = 1
    · rw [if_pos (by omega : w.length = 1)]
      rw [get_make_models_replicate p S (k + 1) w (by omega : 0 < N)]
      rw [hc, hj]
      push_cast
      ring
    · rw [if_neg (by omega : ¬ w.length = 1), hwlen]
      rw [get_make_models_replicate p S (k + 1) w (by omega : j - 1 < N)]
      rw [show j - 1 + 1 = j from by omega, hc]
      push_cast
      ring
  have hden : ∀ k : ℕ,
      rf_denom (make_models p (List.replicate (k + 1) S) N) w 1
        = ((k : ℚ) + 1) * (d : ℚ) + (V : ℚ) := by
    intro k
    unfold rf_denom
    rw [hVk k]
    by_cases hj : j = 1
    · rw [if_pos (by omega : w.length = 1)]
      rw [values_sum_make_models_replicate p S (k + 1) (by omega : 0 < N)]
      rw [hd, if_pos hj]
      push_cast
      ring
    · rw [if_neg (by omega : ¬ w.length = 1), hwlen]
      rw [get_make_models_replicate p S (k + 1) w.dropLast (by omega : j - 2 < N)]
      rw [show j - 2 + 1 = j - 1 from by omega, hd, if_neg hj]
      push_cast
      ring
  have hf : ∀ k : ℕ,
      relFreqQ (make_models p (List.replicate (k + 1) S) N) w 1
        = (((k : ℚ) + 1) * (c : ℚ) + 1) / (((k : ℚ) + 1) * (d : ℚ) + (V : ℚ)) := by
    intro k
    unfold relFreqQ
    rw [hnum k, hden k]
  have hdenpos : ∀ k : ℕ, (0 : ℚ) < ((k : ℚ) + 1) * (d : ℚ) + (V : ℚ) := by
    intro k
    have hk : (0 : ℚ) ≤ (k : ℚ) := Nat.cast_nonneg k
    have hdq : (1 : ℚ) ≤ (d : ℚ) := by exact_mod_cast hd1
    have hVq : (1 : ℚ) ≤ (V : ℚ) := by exact_mod_cast hV1
    nlinarith
  refine ⟨?_, ?_, ?_⟩
  · intro k
    have hne : make_models p (List.replicate (k + 1) S) N ≠ [] := by
      intro hnil
      have hl := make_models_length p (List.replicate (k + 1) S) N
      rw [hnil] at hl
      simp at hl
      omega
    have hlen : w.length ≤ (make_models p (List.replicate (k + 1) S) N).length := by
      rw [make_models_length]
      omega
    refine rf_ok _ w 1 hne (by omega) hlen ?_
    rw [hden k]
    exact ne_of_gt (hdenpos k)
  · have hcq : (0 : ℚ) ≤ (c : ℚ) := Nat.cast_nonneg c
    have hdq : (1 : ℚ) ≤ (d : ℚ) := by exact_mod_cast hd1
    have hVq : (1 : ℚ) ≤ (V : ℚ) := by exact_mod_cast hV1
    rcases le_total (d : ℚ) ((c : ℚ) * (V : ℚ)) with hcase | hcase
    · left
      apply monotone_nat_of_le_succ
      intro k
      rw [hf k, hf (k + 1)]
      rw [div_le_div_iff₀ (hdenpos k) (by push_cast; exact_mod_cast hdenpos (k + 1))]
      have hk : (0 : ℚ) ≤ (k : ℚ) := Nat.cast_nonneg k
      push_cast
      nlinarith
    · right
      apply antitone_nat_of_succ_le
      intro k
      rw [hf k, hf (k + 1)]
      rw [div_le_div_iff₀ (by push_cast; exact_mod_cast hdenpos (k + 1)) (hdenpos k)]
      have hk : (0 : ℚ) ≤ (k : ℚ) := Nat.cast_nonneg k
      push_cast
      nlinarith
  · have hdR : (0 : ℝ) < (d : ℝ) := by
      have : (1 : ℝ) ≤ (d : ℝ) := by exact_mod_cast hd1
      linarith
    have heqR : ∀ k : ℕ,
        ((relFreqQ (make_models p (List.replicate (k + 1) S) N) w 1 : ℚ) : ℝ)
          = ((c : ℝ) + 1 / ((k : ℝ) + 1)) / ((d : ℝ) + (V : ℝ) / ((k : ℝ) + 1)) := by
      intro k
      rw [hf k]
      push_cast
      have hk1 : ((k : ℝ) + 1) ≠ 0 := by positivity
      rw [div_eq_div_iff]
      · field_simp
        ring
      · have h1 : (0 : ℝ) ≤ (k : ℝ) := Nat.cast_nonneg k
        have h2 : (0 : ℝ) ≤ (d : ℝ) := le_of_lt hdR
        have h3 : (1 : ℝ) ≤ (V : ℝ) := by exact_mod_cast hV1
        nlinarith
      · have h1 : (0 : ℝ) < 1 / ((k : ℝ) + 1) := by positivity
        have h3 : (0 : ℝ) ≤ (V : ℝ) := Nat.cast_nonneg V
        have h4 : (0 : ℝ) ≤ (V : ℝ) / ((k : ℝ) + 1) := by positivity
        linarith
    have hlim1 : Filter.Tendsto (fun k : ℕ => (c : ℝ) + 1 / ((k : ℝ) + 1))
        Filter.atTop (nhds ((c : ℝ) + 0)) :=
      Filter.Tendsto.add tendsto_const_nhds tendsto_one_div_add_atTop_nhds_zero_nat
    have hlim2 : Filter.Tendsto (fun k : ℕ => (d : ℝ) + (V : ℝ) / ((k : ℝ) + 1))
        Filter.atTop (nhds ((d : ℝ) + 0)) := by
      apply Filter.Tendsto.add tendsto_const_nhds
      have h := tendsto_one_div_add_atTop_nhds_zero_nat.const_mul (V : ℝ)
      rw [mul_zero] at h
      apply h.congr
      intro k
      rw [mul_one_div]
    have hdiv := Filter.Tendsto.div hlim1 hlim2 (by rw [add_zero]; exact ne_of_gt hdR)
    have hfinal : Filter.Tendsto
        (fun k : ℕ => ((relFreqQ (make_models p (List.replicate (k + 1) S) N) w 1 : ℚ) : ℝ))
        Filter.atTop (nhds (((c : ℝ) + 0) / ((d : ℝ) + 0))) := by
      apply hdiv.congr
      intro k
      rw [heqR k]
      rfl
    rw [add_zero, add_zero] at hfinal
    have hgoal : ((line_windows s j).count w : ℝ)
        / (if j = 1 then (s.length : ℝ)
           else ((line_windows s (j - 1)).count w.dropLast : ℝ))
        = (c : ℝ) / (d : ℝ) := by
      rw [hc, hd]
      by_cases hj : j = 1
      · rw [if_pos hj, if_pos hj]
      · rw [if_neg hj, if_neg hj]
    rw [hgoal]
    exact hfinal

theorem C5_empty_model_zero_division_witness :
    (1 ≤ (["b"] : List String).length ∧ (["b"] : List String).length ≤ 2)
    ∧ get_relative_freq (make_models p0 [] 2) ["b"] 1 = .error .zeroDivisionError
    ∧ compute_prob p0 (make_models p0 [] 2) "x" none = .error .zeroDivisionError :=
  ⟨⟨by decide, by decide⟩,
    C5_empty_model_zero_division p0 p0 2 ["b"] "x" 1 (by decide) (by decide)⟩

theorem C8_repeated_corpus_monotone_witness :
    (1 ≤ 1 ∧ 1 ≤ 2 ∧ ["a"] ∈ line_windows (process_sentence p0 "a b") 1)
    ∧ ((∀ k : ℕ,
        get_relative_freq (make_models p0 (List.replicate (k + 1) "a b") 2) ["a"] 1
          = .ok (relFreqQ (make_models p0 (List.replicate (k + 1) "a b") 2) ["a"] 1))
      ∧ ((Monotone fun k : ℕ =>
            relFreqQ (make_models p0 (List.replicate (k + 1) "a b") 2) ["a"] 1)
        ∨ (Antitone fun k : ℕ =>
            relFreqQ (make_models p0 (List.replicate (k + 1) "a b") 2) ["a"] 1))
      ∧ Filter.Tendsto
          (fun k : ℕ =>
            ((relFreqQ (make_models p0 (List.replicate (k + 1) "a b") 2) ["a"] 1 : ℚ) : ℝ))
          Filter.atTop
          (nhds (((line_windows (process_sentence p0 "a b") 1).count ["a"] : ℝ)
            / (if 1 = 1 then ((process_sentence p0 "a b").length : ℝ)
               else ((line_windows (process_sentence p0 "a b") (1 - 1)).count
                   (["a"] : List String).dropLast : ℝ))))) :=
  ⟨⟨le_rfl, by decide, by decide⟩,
    C8_repeated_corpus_monotone p0 "a b" 2 1 ["a"] le_rfl (by decide) (by decide)⟩

end Ngram
